import Mathlib

/-!
Verification of the rectangle bin-packing core of `sprite_builder_native.py`
(`MaxRectsBin` and `pack_rectangles`), shallowly embedded in Lean.

All coordinates and sizes are natural numbers; every subtraction in the
source occurs under a strict-inequality guard, so `Nat` subtraction agrees
with Python integer subtraction at every use site.
-/

set_option maxRecDepth 4000

/-- A rectangle `(x, y, w, h)`, as used for both free rectangles and placed
rectangles in the source. -/
structure Rect where
  x : Nat
  y : Nat
  w : Nat
  h : Nat
deriving DecidableEq

/-- Embedding of `MaxRectsBin._overlaps`: strict 2D interval overlap on both
axes. -/
def overlaps (a b : Rect) : Bool :=
  decide (a.x < b.x + b.w ∧ b.x < a.x + a.w ∧ a.y < b.y + b.h ∧ b.y < a.y + a.h)

/-- Containment test used by `MaxRectsBin._prune`: `a` lies within `b` on all
four bounds. -/
def containedIn (a b : Rect) : Bool :=
  decide (b.x ≤ a.x ∧ b.y ≤ a.y ∧ a.x + a.w ≤ b.x + b.w ∧ a.y + a.h ≤ b.y + b.h)

/-- Embedding of `MaxRectsBin._split`: split `free` into up to four strips
(left, right, top, bottom, in the source's append order) that avoid `used`. -/
def splitRect (free used : Rect) : List Rect :=
  (if free.x < used.x then [⟨free.x, free.y, used.x - free.x, free.h⟩] else []) ++
  (if used.x + used.w < free.x + free.w then
    [⟨used.x + used.w, free.y, free.x + free.w - (used.x + used.w), free.h⟩] else []) ++
  (if free.y < used.y then [⟨free.x, free.y, free.w, used.y - free.y⟩] else []) ++
  (if used.y + used.h < free.y + free.h then
    [⟨free.x, used.y + used.h, free.w, free.y + free.h - (used.y + used.h)⟩] else [])

/-- Embedding of `MaxRectsBin._prune`: keep the rectangle at index `i` unless
it is contained in the rectangle at some other index `j`.  The index-based
`i != j` comparison of the source is preserved (it matters for duplicates). -/
def prune (l : List Rect) : List Rect :=
  (List.finRange l.length).filterMap (fun i =>
    if (List.finRange l.length).any
        (fun j => decide (j ≠ i) && containedIn (l.get i) (l.get j)) then
      none
    else
      some (l.get i))

/-- Score of line 55 of the source: `fw * fh - w * h` (both factors are at
least `w * h` whenever the score is consulted, so `Nat` subtraction agrees
with Python). -/
def wasteScore (w h : Nat) (fr : Rect) : Nat :=
  fr.w * fr.h - w * h

/-- The best-fit search loop of `MaxRectsBin.place` (lines 49-58), with the
running best as an explicit accumulator: a fitting rectangle replaces the
current best only on a strictly smaller score. -/
def findBestAux (w h : Nat) : Option Rect → List Rect → Option Rect
  | best, [] => best
  | best, fr :: rest =>
    if w ≤ fr.w ∧ h ≤ fr.h then
      match best with
      | none => findBestAux w h (some fr) rest
      | some b =>
        if wasteScore w h fr < wasteScore w h b then
          findBestAux w h (some fr) rest
        else
          findBestAux w h (some b) rest
    else
      findBestAux w h best rest

/-- Best Area Fit selection over the whole free list. -/
def findBest (w h : Nat) (l : List Rect) : Option Rect :=
  findBestAux w h none l

/-- State of a `MaxRectsBin`: fixed dimensions plus the free-rectangle list. -/
structure MaxRectsBin where
  width : Nat
  height : Nat
  free_rects : List Rect
deriving DecidableEq

/-- Embedding of `MaxRectsBin.__init__`: one free rectangle covering the whole
bin. -/
def MaxRectsBin.init (width height : Nat) : MaxRectsBin :=
  ⟨width, height, [⟨0, 0, width, height⟩]⟩

/-- The intermediate free list built in `place` (lines 66-73): every free
rectangle overlapping the placed rectangle is replaced by its split parts;
the others are kept. -/
def newFreeList (l : List Rect) (placed : Rect) : List Rect :=
  l.flatMap (fun fr => if overlaps fr placed then splitRect fr placed else [fr])

/-- Embedding of `MaxRectsBin.place`: returns the position (or `none`) together
with the bin state after the call.  On failure the source returns before any
mutation, so the state is returned unchanged. -/
def MaxRectsBin.place (bin : MaxRectsBin) (w h : Nat) : Option (Nat × Nat) × MaxRectsBin :=
  match findBest w h bin.free_rects with
  | none => (none, bin)
  | some br =>
    (some (br.x, br.y),
      ⟨bin.width, bin.height, prune (newFreeList bin.free_rects ⟨br.x, br.y, w, h⟩)⟩)

/-- An input item `(id, width, height)`; the image payload carried alongside in
the source is irrelevant to packing and omitted. -/
structure Item (α : Type) where
  id : α
  w : Nat
  h : Nat
deriving DecidableEq

/-- An output placement `(id, x, y, w, h)`. -/
structure Placement (α : Type) where
  id : α
  x : Nat
  y : Nat
  w : Nat
  h : Nat
deriving DecidableEq

/-- The rectangle occupied by a placement. -/
def Placement.rect {α : Type} (p : Placement α) : Rect :=
  ⟨p.x, p.y, p.w, p.h⟩

/-- One packing attempt (lines 141-150): place every item in order, failing as
a whole on the first item that does not fit. -/
def attempt {α : Type} : MaxRectsBin → List (Item α) → Option (List (Placement α) × MaxRectsBin)
  | bin, [] => some ([], bin)
  | bin, it :: rest =>
    match bin.place it.w it.h with
    | (none, _) => none
    | (some pos, bin1) =>
      match attempt bin1 rest with
      | none => none
      | some (ps, bin2) => some (⟨it.id, pos.1, pos.2, it.w, it.h⟩ :: ps, bin2)

/-- The growth step of lines 156-159: double the width when `width <= height`,
otherwise double the height. -/
def grow (w h : Nat) : Nat × Nat :=
  if w ≤ h then (w * 2, h) else (w, h * 2)

/-- The `while True` retry loop of `pack_rectangles` (lines 140-159), with
explicit fuel standing in for the unbounded iteration. -/
def packLoop {α : Type} : Nat → List (Item α) → Nat → Nat → Option (List (Placement α) × MaxRectsBin)
  | 0, _, _, _ => none
  | fuel + 1, items, w, h =>
    match attempt (MaxRectsBin.init w h) items with
    | some r => some r
    | none => packLoop fuel items (grow w h).1 (grow w h).2

/-- Stable insertion of an item into a list sorted descending by
`max w h`: the inserted item goes in front of the first element whose key is
not larger, so an earlier input item precedes later items with an equal key. -/
def insertByKey {α : Type} (a : Item α) : List (Item α) → List (Item α)
  | [] => [a]
  | b :: l => if max b.w b.h ≤ max a.w a.h then a :: b :: l else b :: insertByKey a l

/-- Embedding of line 138, `sorted(imgs, key=max side, reverse=True)`.
Python's sort is stable, and a stable descending sort has a uniquely
determined output, so this stable insertion sort computes the same list. -/
def sortItems {α : Type} : List (Item α) → List (Item α)
  | [] => []
  | a :: l => insertByKey a (sortItems l)

/-- Failure outcomes of the embedded `pack_rectangles`: the Python
`ValueError` raised by `max()` on an empty sequence, and fuel exhaustion
standing in for non-termination of the unbounded retry loop. -/
inductive PackError where
  | valueErrorMaxEmpty
  | outOfFuel
deriving DecidableEq

/-- Result of the embedded `pack_rectangles`: either the placement list with
the tight bounding box, or a failure. -/
inductive PackResult (α : Type) where
  | ok : List (Placement α) → Nat → Nat → PackResult α
  | error : PackError → PackResult α
deriving DecidableEq

/-- Integer square root, modelling Python's `int(math.sqrt(n))`: the number of
`k ≤ n` with `k * k ≤ n` is `⌊√n⌋ + 1`.  (The source goes through a float
square root; the two agree wherever the float is exact, and no claim depends
on this value.) -/
def intSqrt (n : Nat) : Nat :=
  (List.range (n + 1)).countP (fun k => decide (k * k ≤ n)) - 1

/-- Embedding of `pack_rectangles` (lines 127-165).  The `max` over the
(possibly empty) input, like the final `max` over the placements, is Python's
`max()` and fails on an empty sequence. -/
def pack_rectangles {α : Type} (fuel : Nat) (imgs : List (Item α)) :
    PackResult α :=
  let total_area := (imgs.map (fun i => i.w * i.h)).sum
  match (imgs.map Item.w).max?, (imgs.map Item.h).max? with
  | some max_img_w, some max_img_h =>
    match packLoop fuel (sortItems imgs)
        (max (intSqrt total_area + 1) max_img_w)
        (max (intSqrt total_area + 1) max_img_h) with
    | none => .error .outOfFuel
    | some (placed, _) =>
      match (placed.map (fun p => p.x + p.w)).max?, (placed.map (fun p => p.y + p.h)).max? with
      | some fw, some fh => .ok placed fw fh
      | _, _ => .error .valueErrorMaxEmpty
  | _, _ => .error .valueErrorMaxEmpty

/-- Disjointness of two rectangles: separation on at least one axis. -/
def RectDisjoint (a b : Rect) : Prop :=
  a.x + a.w ≤ b.x ∨ b.x + b.w ≤ a.x ∨ a.y + a.h ≤ b.y ∨ b.y + b.h ≤ a.y

instance (a b : Rect) : Decidable (RectDisjoint a b) := by
  unfold RectDisjoint
  infer_instance

/-- The four residual slivers of `free` outside the extent of `used`, in the
words of the specification (left, right, top, bottom), before discarding
degenerate ones. -/
def sliverCandidates (free used : Rect) : List Rect :=
  [⟨free.x, free.y, used.x - free.x, free.h⟩,
   ⟨used.x + used.w, free.y, free.x + free.w - (used.x + used.w), free.h⟩,
   ⟨free.x, free.y, free.w, used.y - free.y⟩,
   ⟨free.x, used.y + used.h, free.w, free.y + free.h - (used.y + used.h)⟩]

/-- The residual slivers kept by the specification: only those with positive
width and positive height. -/
def specSlivers (free used : Rect) : List Rect :=
  (sliverCandidates free used).filter (fun r => decide (0 < r.w ∧ 0 < r.h))

/-- The free-list invariant of a bin: every free rectangle has positive
dimensions and lies inside the bin. -/
def FreeOk (bin : MaxRectsBin) : Prop :=
  ∀ fr ∈ bin.free_rects,
    0 < fr.w ∧ 0 < fr.h ∧ fr.x + fr.w ≤ bin.width ∧ fr.y + fr.h ≤ bin.height

instance (bin : MaxRectsBin) : Decidable (FreeOk bin) := by
  unfold FreeOk
  infer_instance

/-! ### Basic geometry lemmas -/

theorem overlaps_eq_true_iff {a b : Rect} :
    overlaps a b = true ↔
      a.x < b.x + b.w ∧ b.x < a.x + a.w ∧ a.y < b.y + b.h ∧ b.y < a.y + a.h := by
  simp [overlaps]

theorem overlaps_eq_false_iff {a b : Rect} :
    overlaps a b = false ↔ RectDisjoint a b := by
  simp only [overlaps, RectDisjoint, decide_eq_false_iff_not]
  push_neg
  omega

theorem containedIn_eq_true_iff {a b : Rect} :
    containedIn a b = true ↔
      b.x ≤ a.x ∧ b.y ≤ a.y ∧ a.x + a.w ≤ b.x + b.w ∧ a.y + a.h ≤ b.y + b.h := by
  simp [containedIn]

theorem containedIn_refl (a : Rect) : containedIn a a = true := by
  simp [containedIn]

theorem containedIn_trans {a b c : Rect} (h1 : containedIn a b = true)
    (h2 : containedIn b c = true) : containedIn a c = true := by
  simp only [containedIn_eq_true_iff] at *
  omega

theorem rectDisjoint_symm {a b : Rect} (h : RectDisjoint a b) : RectDisjoint b a := by
  unfold RectDisjoint at *
  omega

theorem containedIn_disjoint {a b c : Rect} (hab : containedIn a b = true)
    (hbc : RectDisjoint b c) : RectDisjoint a c := by
  rw [containedIn_eq_true_iff] at hab
  unfold RectDisjoint at *
  omega

theorem containedIn_measure {a b : Rect} (h : containedIn a b = true) (hne : a ≠ b) :
    a.w + a.h < b.w + b.h := by
  obtain ⟨ax, ay, aw, ah⟩ := a
  obtain ⟨bx, by1, bw, bh⟩ := b
  simp only [containedIn_eq_true_iff] at h
  simp only [ne_eq, Rect.mk.injEq, not_and] at hne
  simp only at h ⊢
  omega

/-! ### Lemmas about `_split` -/

theorem mem_if_singleton {c : Prop} [Decidable c] {r a : Rect} :
    r ∈ (if c then [a] else []) ↔ c ∧ r = a := by
  split <;> simp_all

theorem mem_splitRect {r free used : Rect} (h : r ∈ splitRect free used) :
    (free.x < used.x ∧ r = ⟨free.x, free.y, used.x - free.x, free.h⟩) ∨
    (used.x + used.w < free.x + free.w ∧
      r = ⟨used.x + used.w, free.y, free.x + free.w - (used.x + used.w), free.h⟩) ∨
    (free.y < used.y ∧ r = ⟨free.x, free.y, free.w, used.y - free.y⟩) ∨
    (used.y + used.h < free.y + free.h ∧
      r = ⟨free.x, used.y + used.h, free.w, free.y + free.h - (used.y + used.h)⟩) := by
  simp only [splitRect, List.mem_append, mem_if_singleton] at h
  tauto

theorem splitRect_containedIn {r free used : Rect} (hov : overlaps free used = true)
    (h : r ∈ splitRect free used) : containedIn r free = true := by
  rw [overlaps_eq_true_iff] at hov
  rcases mem_splitRect h with ⟨hg, rfl⟩ | ⟨hg, rfl⟩ | ⟨hg, rfl⟩ | ⟨hg, rfl⟩ <;>
    (rw [containedIn_eq_true_iff]; simp only; omega)

theorem splitRect_disjoint_used {r free used : Rect} (h : r ∈ splitRect free used) :
    RectDisjoint r used := by
  rcases mem_splitRect h with ⟨hg, rfl⟩ | ⟨hg, rfl⟩ | ⟨hg, rfl⟩ | ⟨hg, rfl⟩ <;>
    (unfold RectDisjoint; simp only; omega)

theorem splitRect_pos {r free used : Rect} (hw : 0 < free.w) (hh : 0 < free.h)
    (h : r ∈ splitRect free used) : 0 < r.w ∧ 0 < r.h := by
  rcases mem_splitRect h with ⟨hg, rfl⟩ | ⟨hg, rfl⟩ | ⟨hg, rfl⟩ | ⟨hg, rfl⟩ <;>
    (simp only; omega)

theorem splitRect_eq_specSlivers {free used : Rect} (hw : 0 < free.w) (hh : 0 < free.h) :
    splitRect free used = specSlivers free used := by
  unfold splitRect specSlivers sliverCandidates
  by_cases h1 : free.x < used.x <;>
  by_cases h2 : used.x + used.w < free.x + free.w <;>
  by_cases h3 : free.y < used.y <;>
  by_cases h4 : used.y + used.h < free.y + free.h <;>
    simp only [h1, h2, h3, h4, if_true, if_false, List.filter_cons, List.filter_nil,
      decide_eq_true_eq, List.nil_append, List.cons_append, List.append_nil] <;>
    repeat' split <;> simp_all

/-! ### Lemmas about `_prune` -/

theorem mem_prune_iff {l : List Rect} {a : Rect} :
    a ∈ prune l ↔ ∃ i : Fin l.length, l.get i = a ∧
      ∀ j : Fin l.length, j ≠ i → containedIn (l.get i) (l.get j) = false := by
  simp only [prune, List.mem_filterMap, List.mem_finRange, true_and]
  constructor
  · rintro ⟨i, hi⟩
    by_cases hc : (List.finRange l.length).any
        (fun j => decide (j ≠ i) && containedIn (l.get i) (l.get j)) = true
    · rw [if_pos hc] at hi
      cases hi
    · rw [if_neg hc] at hi
      have ha : l.get i = a := by
        injection hi
      refine ⟨i, ha, ?_⟩
      intro j hj
      rw [List.any_eq_true] at hc
      push_neg at hc
      have hx := hc j (List.mem_finRange j)
      simpa [hj] using hx
  · rintro ⟨i, ha, hall⟩
    refine ⟨i, ?_⟩
    have hc : (List.finRange l.length).any
        (fun j => decide (j ≠ i) && containedIn (l.get i) (l.get j)) = false := by
      rw [List.any_eq_false]
      intro j _
      by_cases hji : j = i
      · simp [hji]
      · have hx := hall j hji
        simp only [List.get_eq_getElem] at hx
        simp [hji, hx]
    rw [if_neg (by rw [hc]; exact Bool.false_ne_true), ha]

theorem prune_sub {l : List Rect} {a : Rect} (h : a ∈ prune l) : a ∈ l := by
  rcases mem_prune_iff.1 h with ⟨i, rfl, -⟩
  exact List.get_mem l i.1 i.2

theorem mem_prune_of_forall {l : List Rect} {b : Rect} (hnd : l.Nodup) (hb : b ∈ l)
    (h : ∀ c ∈ l, c ≠ b → containedIn b c = false) : b ∈ prune l := by
  rw [mem_prune_iff]
  obtain ⟨i, hi⟩ := List.mem_iff_get.1 hb
  refine ⟨i, hi, ?_⟩
  intro j hj
  have hne : l.get j ≠ l.get i := by
    intro he
    exact hj ((List.Nodup.get_inj_iff hnd).1 he)
  rw [hi]
  exact h (l.get j) (List.get_mem l j.1 j.2) (hi ▸ hne)

theorem exists_container_of_not_mem_prune {l : List Rect} {a : Rect} (hnd : l.Nodup)
    (ha : a ∈ l) (h : a ∉ prune l) : ∃ b ∈ l, b ≠ a ∧ containedIn a b = true := by
  by_contra hc
  push_neg at hc
  refine h (mem_prune_of_forall hnd ha ?_)
  intro c hcl hne
  have := hc c hcl hne
  cases hv : containedIn a c
  · rfl
  · exact absurd hv this

theorem exists_max_measure {l : List Rect} (h : l ≠ []) :
    ∃ c ∈ l, ∀ d ∈ l, d.w + d.h ≤ c.w + c.h := by
  induction l with
  | nil => exact absurd rfl h
  | cons a l ih =>
    by_cases hl : l = []
    · subst hl
      refine ⟨a, List.mem_singleton_self a, ?_⟩
      intro d hd
      rw [List.mem_singleton] at hd
      subst hd
      exact le_refl _
    · obtain ⟨c, hc, hmax⟩ := ih hl
      by_cases hac : c.w + c.h ≤ a.w + a.h
      · refine ⟨a, List.mem_cons_self a l, ?_⟩
        intro d hd
        rcases List.mem_cons.1 hd with rfl | hd
        · exact le_refl _
        · exact le_trans (hmax d hd) hac
      · refine ⟨c, List.mem_cons_of_mem a hc, ?_⟩
        intro d hd
        rcases List.mem_cons.1 hd with rfl | hd
        · omega
        · exact hmax d hd

/-! ### Lemmas about the Best Area Fit search -/

theorem findBestAux_ne_none {w h : Nat} {l : List Rect} {b : Rect} :
    findBestAux w h (some b) l ≠ none := by
  induction l generalizing b with
  | nil => simp [findBestAux]
  | cons fr rest ih =>
    by_cases hf : w ≤ fr.w ∧ h ≤ fr.h
    · by_cases hs : wasteScore w h fr < wasteScore w h b
      · simp only [findBestAux, if_pos hf, if_pos hs]
        exact ih
      · simp only [findBestAux, if_pos hf, if_neg hs]
        exact ih
    · simp only [findBestAux, if_neg hf]
      exact ih

theorem findBest_none_iff {w h : Nat} {l : List Rect} :
    findBest w h l = none ↔ ∀ fr ∈ l, ¬(w ≤ fr.w ∧ h ≤ fr.h) := by
  unfold findBest
  induction l with
  | nil => simp [findBestAux]
  | cons fr rest ih =>
    by_cases hf : w ≤ fr.w ∧ h ≤ fr.h
    · simp only [findBestAux, if_pos hf]
      constructor
      · intro hcontra
        exact absurd hcontra findBestAux_ne_none
      · intro hall
        exact absurd hf (hall fr (List.mem_cons_self _ _))
    · simp only [findBestAux, if_neg hf]
      rw [ih]
      constructor
      · intro h1 fr1 hm
        rcases List.mem_cons.1 hm with rfl | hm
        · exact hf
        · exact h1 fr1 hm
      · intro h1 fr1 hm
        exact h1 fr1 (List.mem_cons_of_mem _ hm)

theorem findBestAux_spec {w h : Nat} {l : List Rect} :
    ∀ {b br : Rect}, findBestAux w h (some b) l = some br →
    (br = b ∧ ∀ fr ∈ l, w ≤ fr.w → h ≤ fr.h → wasteScore w h b ≤ wasteScore w h fr)
    ∨ (∃ l1 l2, l = l1 ++ br :: l2 ∧ w ≤ br.w ∧ h ≤ br.h
        ∧ wasteScore w h br < wasteScore w h b
        ∧ (∀ fr ∈ l1, w ≤ fr.w → h ≤ fr.h → wasteScore w h br < wasteScore w h fr)
        ∧ (∀ fr ∈ l2, w ≤ fr.w → h ≤ fr.h → wasteScore w h br ≤ wasteScore w h fr)) := by
  induction l with
  | nil =>
    intro b br hres
    simp only [findBestAux, Option.some.injEq] at hres
    refine Or.inl ⟨hres.symm, ?_⟩
    simp
  | cons fr rest ih =>
    intro b br hres
    by_cases hf : w ≤ fr.w ∧ h ≤ fr.h
    · by_cases hs : wasteScore w h fr < wasteScore w h b
      · simp only [findBestAux, if_pos hf, if_pos hs] at hres
        rcases ih hres with ⟨rfl, hmin⟩ | ⟨l1, l2, heq, hfw, hfh, hlt, hl1, hl2⟩
        · refine Or.inr ⟨[], rest, by simp, hf.1, hf.2, hs, by simp, hmin⟩
        · refine Or.inr ⟨fr :: l1, l2, by simp [heq], hfw, hfh, lt_trans hlt hs, ?_, hl2⟩
          intro fr1 hm hw1 hh1
          rcases List.mem_cons.1 hm with rfl | hm
          · exact hlt
          · exact hl1 fr1 hm hw1 hh1
      · simp only [findBestAux, if_pos hf, if_neg hs] at hres
        rcases ih hres with ⟨rfl, hmin⟩ | ⟨l1, l2, heq, hfw, hfh, hlt, hl1, hl2⟩
        · refine Or.inl ⟨rfl, ?_⟩
          intro fr1 hm hw1 hh1
          rcases List.mem_cons.1 hm with rfl | hm
          · omega
          · exact hmin fr1 hm hw1 hh1
        · refine Or.inr ⟨fr :: l1, l2, by simp [heq], hfw, hfh, hlt, ?_, hl2⟩
          intro fr1 hm hw1 hh1
          rcases List.mem_cons.1 hm with rfl | hm
          · omega
          · exact hl1 fr1 hm hw1 hh1
    · simp only [findBestAux, if_neg hf] at hres
      rcases ih hres with ⟨rfl, hmin⟩ | ⟨l1, l2, heq, hfw, hfh, hlt, hl1, hl2⟩
      · refine Or.inl ⟨rfl, ?_⟩
        intro fr1 hm hw1 hh1
        rcases List.mem_cons.1 hm with rfl | hm
        · exact absurd ⟨hw1, hh1⟩ hf
        · exact hmin fr1 hm hw1 hh1
      · refine Or.inr ⟨fr :: l1, l2, by simp [heq], hfw, hfh, hlt, ?_, hl2⟩
        intro fr1 hm hw1 hh1
        rcases List.mem_cons.1 hm with rfl | hm
        · exact absurd ⟨hw1, hh1⟩ hf
        · exact hl1 fr1 hm hw1 hh1

theorem findBest_some_spec {w h : Nat} {l : List Rect} :
    ∀ {br : Rect}, findBest w h l = some br →
    ∃ l1 l2, l = l1 ++ br :: l2 ∧ w ≤ br.w ∧ h ≤ br.h
      ∧ (∀ fr ∈ l1, w ≤ fr.w → h ≤ fr.h → wasteScore w h br < wasteScore w h fr)
      ∧ (∀ fr ∈ l2, w ≤ fr.w → h ≤ fr.h → wasteScore w h br ≤ wasteScore w h fr) := by
  induction l with
  | nil =>
    intro br hres
    simp [findBest, findBestAux] at hres
  | cons fr rest ih =>
    intro br hres
    unfold findBest at hres
    by_cases hf : w ≤ fr.w ∧ h ≤ fr.h
    · simp only [findBestAux, if_pos hf] at hres
      rcases findBestAux_spec hres with ⟨rfl, hmin⟩ | ⟨l1, l2, heq, hfw, hfh, hlt, hl1, hl2⟩
      · exact ⟨[], rest, by simp, hf.1, hf.2, by simp, hmin⟩
      · refine ⟨fr :: l1, l2, by simp [heq], hfw, hfh, ?_, hl2⟩
        intro fr1 hm hw1 hh1
        rcases List.mem_cons.1 hm with rfl | hm
        · exact hlt
        · exact hl1 fr1 hm hw1 hh1
    · simp only [findBestAux, if_neg hf] at hres
      obtain ⟨l1, l2, heq, hfw, hfh, hl1, hl2⟩ := ih hres
      refine ⟨fr :: l1, l2, by simp [heq], hfw, hfh, ?_, hl2⟩
      intro fr1 hm hw1 hh1
      rcases List.mem_cons.1 hm with rfl | hm
      · exact absurd ⟨hw1, hh1⟩ hf
      · exact hl1 fr1 hm hw1 hh1

theorem findBest_mem {w h : Nat} {l : List Rect} {br : Rect}
    (hres : findBest w h l = some br) : br ∈ l ∧ w ≤ br.w ∧ h ≤ br.h := by
  obtain ⟨l1, l2, heq, hfw, hfh, -, -⟩ := findBest_some_spec hres
  refine ⟨?_, hfw, hfh⟩
  rw [heq]
  exact List.mem_append.2 (Or.inr (List.mem_cons_self _ _))

theorem findBest_min {w h : Nat} {l : List Rect} {br : Rect}
    (hres : findBest w h l = some br) :
    ∀ fr ∈ l, w ≤ fr.w → h ≤ fr.h → wasteScore w h br ≤ wasteScore w h fr := by
  obtain ⟨l1, l2, heq, -, -, hl1, hl2⟩ := findBest_some_spec hres
  intro fr hm hw1 hh1
  subst heq
  rcases List.mem_append.1 hm with hm | hm
  · exact le_of_lt (hl1 fr hm hw1 hh1)
  · rcases List.mem_cons.1 hm with rfl | hm
    · exact le_refl _
    · exact hl2 fr hm hw1 hh1

/-! ### Lemmas about `place` -/

theorem place_none_iff {bin : MaxRectsBin} {w h : Nat} :
    (bin.place w h).1 = none ↔ findBest w h bin.free_rects = none := by
  unfold MaxRectsBin.place
  cases hfb : findBest w h bin.free_rects <;> simp

theorem place_none_state {bin : MaxRectsBin} {w h : Nat}
    (h1 : (bin.place w h).1 = none) : (bin.place w h).2 = bin := by
  rw [place_none_iff] at h1
  unfold MaxRectsBin.place
  rw [h1]

theorem place_some_spec {bin : MaxRectsBin} {w h x y : Nat} {bin' : MaxRectsBin}
    (hp : bin.place w h = (some (x, y), bin')) :
    ∃ br, findBest w h bin.free_rects = some br ∧ br.x = x ∧ br.y = y ∧
      bin' = ⟨bin.width, bin.height, prune (newFreeList bin.free_rects ⟨x, y, w, h⟩)⟩ := by
  unfold MaxRectsBin.place at hp
  cases hfb : findBest w h bin.free_rects with
  | none =>
    rw [hfb] at hp
    cases hp
  | some br =>
    rw [hfb] at hp
    simp only [Prod.mk.injEq, Option.some.injEq] at hp
    obtain ⟨⟨hx, hy⟩, hbin⟩ := hp
    subst hx
    subst hy
    exact ⟨br, rfl, rfl, rfl, hbin.symm⟩

theorem mem_newFreeList {l : List Rect} {placed r : Rect} (h : r ∈ newFreeList l placed) :
    ∃ fr ∈ l, (overlaps fr placed = true ∧ r ∈ splitRect fr placed) ∨
      (overlaps fr placed = false ∧ r = fr) := by
  unfold newFreeList at h
  rw [List.mem_flatMap] at h
  obtain ⟨fr, hfr, hr⟩ := h
  refine ⟨fr, hfr, ?_⟩
  by_cases hov : overlaps fr placed = true
  · rw [if_pos hov] at hr
    exact Or.inl ⟨hov, hr⟩
  · rw [Bool.not_eq_true] at hov
    rw [if_neg (by simp [hov])] at hr
    rw [List.mem_singleton] at hr
    exact Or.inr ⟨hov, hr⟩

theorem mem_newFreeList_contained {l : List Rect} {placed r : Rect}
    (h : r ∈ newFreeList l placed) :
    ∃ fr ∈ l, containedIn r fr = true ∧ RectDisjoint r placed := by
  obtain ⟨fr, hfr, hcase⟩ := mem_newFreeList h
  rcases hcase with ⟨hov, hsp⟩ | ⟨hov, rfl⟩
  · exact ⟨fr, hfr, splitRect_containedIn hov hsp, splitRect_disjoint_used hsp⟩
  · exact ⟨r, hfr, containedIn_refl r, overlaps_eq_false_iff.1 hov⟩

theorem mem_newFreeList_pos {l : List Rect} {placed r : Rect}
    (hpos : ∀ fr ∈ l, 0 < fr.w ∧ 0 < fr.h) (h : r ∈ newFreeList l placed) :
    0 < r.w ∧ 0 < r.h := by
  obtain ⟨fr, hfr, hcase⟩ := mem_newFreeList h
  rcases hcase with ⟨hov, hsp⟩ | ⟨hov, rfl⟩
  · exact splitRect_pos (hpos fr hfr).1 (hpos fr hfr).2 hsp
  · exact hpos r hfr

theorem place_some_free_spec {bin : MaxRectsBin} {w h x y : Nat} {bin' : MaxRectsBin}
    (hp : bin.place w h = (some (x, y), bin')) :
    bin'.width = bin.width ∧ bin'.height = bin.height ∧
    ∀ r ∈ bin'.free_rects, ∃ fr ∈ bin.free_rects,
      containedIn r fr = true ∧ RectDisjoint r ⟨x, y, w, h⟩ := by
  obtain ⟨br, hfb, hx, hy, rfl⟩ := place_some_spec hp
  refine ⟨rfl, rfl, ?_⟩
  intro r hr
  exact mem_newFreeList_contained (prune_sub hr)

theorem init_FreeOk {w h : Nat} (hw : 0 < w) (hh : 0 < h) :
    FreeOk (MaxRectsBin.init w h) := by
  intro fr hfr
  rw [MaxRectsBin.init, List.mem_singleton] at hfr
  subst hfr
  refine ⟨hw, hh, ?_, ?_⟩ <;> simp [MaxRectsBin.init]

theorem place_preserves_FreeOk {bin : MaxRectsBin} {w h : Nat} {res : Option (Nat × Nat)}
    {bin' : MaxRectsBin} (hok : FreeOk bin) (hp : bin.place w h = (res, bin')) :
    FreeOk bin' := by
  cases res with
  | none =>
    have h2 : (bin.place w h).2 = bin := place_none_state (by rw [hp])
    rw [hp] at h2
    simp only at h2
    rw [h2]
    exact hok
  | some pos =>
    obtain ⟨x, y⟩ := pos
    obtain ⟨br, hfb, hx, hy, rfl⟩ := place_some_spec hp
    intro r hr
    have hr1 := prune_sub hr
    have hpos := mem_newFreeList_pos (fun fr hfr => ⟨(hok fr hfr).1, (hok fr hfr).2.1⟩) hr1
    obtain ⟨fr, hfr, hcont, -⟩ := mem_newFreeList_contained hr1
    have hbnd := hok fr hfr
    rw [containedIn_eq_true_iff] at hcont
    refine ⟨hpos.1, hpos.2, ?_, ?_⟩ <;> simp only <;> omega

theorem place_pos_bound {bin : MaxRectsBin} {w h x y : Nat} {bin' : MaxRectsBin}
    (hok : FreeOk bin) (hp : bin.place w h = (some (x, y), bin')) :
    x + w ≤ bin.width ∧ y + h ≤ bin.height := by
  obtain ⟨br, hfb, hx, hy, -⟩ := place_some_spec hp
  obtain ⟨hmem, hw1, hh1⟩ := findBest_mem hfb
  have hbnd := hok br hmem
  omega

/-! ### The attempt loop: pairwise disjointness of the produced placements -/

theorem attempt_disjoint {α : Type} {items : List (Item α)} :
    ∀ {bin : MaxRectsBin} {R : List Rect} {ps : List (Placement α)} {bin' : MaxRectsBin},
    (∀ fr ∈ bin.free_rects, ∀ r ∈ R, RectDisjoint fr r) →
    attempt bin items = some (ps, bin') →
    (ps.map Placement.rect).Pairwise RectDisjoint
    ∧ (∀ r ∈ ps.map Placement.rect, ∀ r0 ∈ R, RectDisjoint r r0)
    ∧ (∀ fr ∈ bin'.free_rects, ∀ r0 ∈ R ++ ps.map Placement.rect, RectDisjoint fr r0) := by
  induction items with
  | nil =>
    intro bin R ps bin' hR hat
    simp only [attempt, Option.some.injEq, Prod.mk.injEq] at hat
    obtain ⟨hps, hbin⟩ := hat
    subst hps
    subst hbin
    refine ⟨by simp, by simp, ?_⟩
    simpa using hR
  | cons it rest ih =>
    intro bin R ps bin' hR hat
    simp only [attempt] at hat
    cases hpl : bin.place it.w it.h with
    | mk res bin1 =>
      rw [hpl] at hat
      cases res with
      | none => cases hat
      | some pos =>
        obtain ⟨x, y⟩ := pos
        dsimp only at hat
        cases hat2 : attempt bin1 rest with
        | none =>
          rw [hat2] at hat
          cases hat
        | some r1 =>
          obtain ⟨ps1, bin2⟩ := r1
          rw [hat2] at hat
          simp only [Option.some.injEq, Prod.mk.injEq] at hat
          obtain ⟨hps, hbin⟩ := hat
          subst hps
          subst hbin
          obtain ⟨br, hfb, hx, hy, hbin1⟩ := place_some_spec hpl
          obtain ⟨hbr, hw1, hh1⟩ := findBest_mem hfb
          have hcont0 : containedIn ⟨x, y, it.w, it.h⟩ br = true := by
            rw [containedIn_eq_true_iff]
            simp only
            omega
          have hp0R : ∀ r0 ∈ R, RectDisjoint ⟨x, y, it.w, it.h⟩ r0 := by
            intro r0 hr0
            exact containedIn_disjoint hcont0 (hR br hbr r0 hr0)
          have hbin1R : ∀ fr1 ∈ bin1.free_rects,
              ∀ r0 ∈ R ++ [(⟨x, y, it.w, it.h⟩ : Rect)], RectDisjoint fr1 r0 := by
            intro fr1 hfr1 r0 hr0
            rw [hbin1] at hfr1
            simp only at hfr1
            obtain ⟨fr, hfr, hcont, hdisj⟩ := mem_newFreeList_contained (prune_sub hfr1)
            rcases List.mem_append.1 hr0 with hr0 | hr0
            · exact containedIn_disjoint hcont (hR fr hfr r0 hr0)
            · rw [List.mem_singleton] at hr0
              subst hr0
              exact hdisj
          obtain ⟨hpw, hpsR, hbin2⟩ := ih hbin1R hat2
          have hrect : Placement.rect (⟨it.id, x, y, it.w, it.h⟩ : Placement α)
              = ⟨x, y, it.w, it.h⟩ := rfl
          refine ⟨?_, ?_, ?_⟩
          · rw [List.map_cons, List.pairwise_cons]
            refine ⟨?_, hpw⟩
            intro r hr
            refine rectDisjoint_symm (hpsR r hr _ ?_)
            rw [hrect]
            exact List.mem_append.2 (Or.inr (List.mem_singleton_self _))
          · intro r hr r0 hr0
            rw [List.map_cons] at hr
            rcases List.mem_cons.1 hr with rfl | hr
            · rw [hrect]
              exact hp0R r0 hr0
            · exact hpsR r hr r0 (List.mem_append.2 (Or.inl hr0))
          · intro fr hfr r0 hr0
            refine hbin2 fr hfr r0 ?_
            rw [List.map_cons, hrect] at hr0
            rw [List.append_assoc]
            simpa using hr0

/-! ### Plumbing from `pack_rectangles` down to `attempt` -/

theorem packLoop_attempt {α : Type} {items : List (Item α)} :
    ∀ {fuel w h : Nat} {ps : List (Placement α)} {bin : MaxRectsBin},
    packLoop fuel items w h = some (ps, bin) →
    ∃ w1 h1, attempt (MaxRectsBin.init w1 h1) items = some (ps, bin) := by
  intro fuel
  induction fuel with
  | zero =>
    intro w h ps bin h1
    simp [packLoop] at h1
  | succ n ih =>
    intro w h ps bin h1
    simp only [packLoop] at h1
    cases hat : attempt (MaxRectsBin.init w h) items with
    | some r =>
      rw [hat] at h1
      simp only [Option.some.injEq] at h1
      exact ⟨w, h, by rw [hat, h1]⟩
    | none =>
      rw [hat] at h1
      exact ih h1

theorem le_max?_of_mem_nat {l : List Nat} {a m : Nat} (ha : a ∈ l) (hm : l.max? = some m) :
    a ≤ m := by
  have h2 := (List.max?_eq_some_iff (fun a => le_refl a) (fun a b => max_choice a b)
    (fun a b c => max_le_iff)).1 hm
  exact h2.2 a ha

theorem pack_ok_spec {α : Type} {fuel : Nat} {imgs : List (Item α)}
    {placed : List (Placement α)} {fw fh : Nat}
    (h : pack_rectangles fuel imgs = .ok placed fw fh) :
    (∃ w1 h1 bin, attempt (MaxRectsBin.init w1 h1) (sortItems imgs) = some (placed, bin))
    ∧ (placed.map (fun p => p.x + p.w)).max? = some fw
    ∧ (placed.map (fun p => p.y + p.h)).max? = some fh := by
  simp only [pack_rectangles] at h
  split at h
  · split at h
    · cases h
    · split at h
      · rename_i ps1 bin1 hloop a b fw1 fh1 hmw1 hmh1
        obtain ⟨w1, h1, hat⟩ := packLoop_attempt hloop
        cases h
        exact ⟨⟨w1, h1, bin1, hat⟩, hmw1, hmh1⟩
      all_goals cases h
  all_goals cases h

theorem flatMap_congr {β : Type} {l : List Rect} {f g : Rect → List β}
    (h : ∀ fr ∈ l, f fr = g fr) : l.flatMap f = l.flatMap g := by
  induction l with
  | nil => rfl
  | cons a t ih =>
    rw [List.flatMap_cons, List.flatMap_cons, h a (List.mem_cons_self a t),
      ih (fun fr hfr => h fr (List.mem_cons_of_mem a hfr))]

/-! ### The claims -/

/-- C1: for every non-empty list of items with positive widths and heights,
the placements returned by a successful run of `pack_rectangles` are pairwise
non-overlapping: any two placements with distinct ids are disjoint on at
least one axis. -/
theorem C1_no_overlap {α : Type} (fuel : Nat) (imgs : List (Item α))
    (placed : List (Placement α)) (fw fh : Nat)
    (hne : imgs ≠ [])
    (hpos : ∀ it ∈ imgs, 0 < it.w ∧ 0 < it.h)
    (hok : pack_rectangles fuel imgs = .ok placed fw fh) :
    ∀ p ∈ placed, ∀ q ∈ placed, p.id ≠ q.id → RectDisjoint p.rect q.rect := by
  obtain ⟨⟨w1, h1, bin, hat⟩, -, -⟩ := pack_ok_spec hok
  have hR : ∀ fr ∈ (MaxRectsBin.init w1 h1).free_rects,
      ∀ r ∈ ([] : List Rect), RectDisjoint fr r := by
    simp
  obtain ⟨hpw, -, -⟩ := attempt_disjoint hR hat
  rw [List.pairwise_map] at hpw
  have hsym : Symmetric (fun p q : Placement α => RectDisjoint p.rect q.rect) :=
    fun p q hpq => rectDisjoint_symm hpq
  intro p hp q hq hne2
  have hpq : p ≠ q := fun he => hne2 (by rw [he])
  exact List.Pairwise.forall hsym hpw hp hq hpq

/-- Witness for C1 at the concrete input `[(0,1,1), (1,1,1)]`, which packs to
`[(0,0,0,1,1), (1,1,0,1,1)]` with bounding box `2 × 1`. -/
theorem C1_no_overlap_witness :
    ([(⟨0, 1, 1⟩ : Item Nat), ⟨1, 1, 1⟩] ≠ [])
    ∧ (∀ it ∈ [(⟨0, 1, 1⟩ : Item Nat), ⟨1, 1, 1⟩], 0 < it.w ∧ 0 < it.h)
    ∧ (∀ p ∈ [(⟨0, 0, 0, 1, 1⟩ : Placement Nat), ⟨1, 1, 0, 1, 1⟩],
        ∀ q ∈ [(⟨0, 0, 0, 1, 1⟩ : Placement Nat), ⟨1, 1, 0, 1, 1⟩],
        p.id ≠ q.id → RectDisjoint p.rect q.rect) :=
  ⟨by decide, by decide,
    C1_no_overlap 1 [⟨0, 1, 1⟩, ⟨1, 1, 1⟩] [⟨0, 0, 0, 1, 1⟩, ⟨1, 1, 0, 1, 1⟩] 2 1
      (by decide) (by decide) (by decide)⟩

/-- C2: on every successful run of `pack_rectangles`, the returned
`final_width` is exactly `max(x + w)` over the placements and `final_height`
is exactly `max(y + h)`, and consequently every placement lies within
`[0, final_width] × [0, final_height]`. -/
theorem C2_tight_bounding_box {α : Type} (fuel : Nat) (imgs : List (Item α))
    (placed : List (Placement α)) (fw fh : Nat)
    (hok : pack_rectangles fuel imgs = .ok placed fw fh) :
    (placed.map (fun p => p.x + p.w)).max? = some fw
    ∧ (placed.map (fun p => p.y + p.h)).max? = some fh
    ∧ ∀ p ∈ placed, 0 ≤ p.x ∧ 0 ≤ p.y ∧ p.x + p.w ≤ fw ∧ p.y + p.h ≤ fh := by
  obtain ⟨-, hmw, hmh⟩ := pack_ok_spec hok
  refine ⟨hmw, hmh, ?_⟩
  intro p hp
  refine ⟨Nat.zero_le _, Nat.zero_le _, ?_, ?_⟩
  · exact le_max?_of_mem_nat (List.mem_map.2 ⟨p, hp, rfl⟩) hmw
  · exact le_max?_of_mem_nat (List.mem_map.2 ⟨p, hp, rfl⟩) hmh

/-- Witness for C2 at the concrete input `[(0,1,1)]`. -/
theorem C2_tight_bounding_box_witness :
    (([(⟨0, 0, 0, 1, 1⟩ : Placement Nat)].map (fun p => p.x + p.w)).max? = some 1)
    ∧ (([(⟨0, 0, 0, 1, 1⟩ : Placement Nat)].map (fun p => p.y + p.h)).max? = some 1)
    ∧ ∀ p ∈ [(⟨0, 0, 0, 1, 1⟩ : Placement Nat)],
        0 ≤ p.x ∧ 0 ≤ p.y ∧ p.x + p.w ≤ 1 ∧ p.y + p.h ≤ 1 :=
  C2_tight_bounding_box 1 [⟨0, 1, 1⟩] [⟨0, 0, 0, 1, 1⟩] 1 1 (by decide)

/-- C3: `place` returns `none` exactly when no free rectangle can hold the
request; otherwise it returns the top-left corner of a fitting free rectangle
of minimal waste `fr.w * fr.h - w * h`, and every fitting rectangle occurring
earlier in the free list has strictly larger waste (first-encountered
tie-break). -/
theorem C3_place_best_area_fit (bin : MaxRectsBin) (w h : Nat)
    (hw : 0 < w) (hh : 0 < h) :
    ((bin.place w h).1 = none ↔ ∀ fr ∈ bin.free_rects, ¬(w ≤ fr.w ∧ h ≤ fr.h))
    ∧ (∀ x y, (bin.place w h).1 = some (x, y) →
        ∃ l1 br l2, bin.free_rects = l1 ++ br :: l2 ∧ x = br.x ∧ y = br.y
          ∧ w ≤ br.w ∧ h ≤ br.h
          ∧ (∀ fr ∈ bin.free_rects, w ≤ fr.w → h ≤ fr.h →
              br.w * br.h - w * h ≤ fr.w * fr.h - w * h)
          ∧ (∀ fr ∈ l1, w ≤ fr.w → h ≤ fr.h →
              br.w * br.h - w * h < fr.w * fr.h - w * h)) := by
  constructor
  · rw [place_none_iff, findBest_none_iff]
  · intro x y hsome
    have hbr : ∃ br, findBest w h bin.free_rects = some br ∧ br.x = x ∧ br.y = y := by
      unfold MaxRectsBin.place at hsome
      cases hfb : findBest w h bin.free_rects with
      | none =>
        rw [hfb] at hsome
        cases hsome
      | some br =>
        rw [hfb] at hsome
        dsimp only at hsome
        simp only [Option.some.injEq, Prod.mk.injEq] at hsome
        exact ⟨br, rfl, hsome.1, hsome.2⟩
    obtain ⟨br, hfb, hx, hy⟩ := hbr
    obtain ⟨l1, l2, heq, hfw, hfh, hl1, hl2⟩ := findBest_some_spec hfb
    have hmin := findBest_min hfb
    refine ⟨l1, br, l2, heq, hx.symm, hy.symm, hfw, hfh, ?_, ?_⟩
    · intro fr hm hw2 hh2
      have hx2 := hmin fr hm hw2 hh2
      unfold wasteScore at hx2
      exact hx2
    · intro fr hm hw2 hh2
      have hx2 := hl1 fr hm hw2 hh2
      unfold wasteScore at hx2
      exact hx2

/-- Witness for C3 at a bin with two free rectangles and a `1 × 1` request. -/
theorem C3_place_best_area_fit_witness :
    (((MaxRectsBin.init 2 3).place 1 1).1 = none ↔
      ∀ fr ∈ (MaxRectsBin.init 2 3).free_rects, ¬(1 ≤ fr.w ∧ 1 ≤ fr.h)) ∧ 0 < 1 :=
  ⟨(C3_place_best_area_fit (MaxRectsBin.init 2 3) 1 1 (by decide) (by decide)).1,
   by decide⟩

/-- C4: on a successful `place`, every free rectangle overlapping the placed
rectangle is replaced (before pruning) by exactly the residual slivers of the
specification — left, right, top, bottom strips with positive width and
height — while non-overlapping free rectangles are retained unchanged; at
most four slivers arise per split rectangle. -/
theorem C4_split_residuals (bin : MaxRectsBin) (w h x y : Nat) (bin' : MaxRectsBin)
    (hfree : ∀ fr ∈ bin.free_rects, 0 < fr.w ∧ 0 < fr.h)
    (hp : bin.place w h = (some (x, y), bin')) :
    bin'.free_rects = prune (bin.free_rects.flatMap (fun fr =>
      if overlaps fr ⟨x, y, w, h⟩ then specSlivers fr ⟨x, y, w, h⟩ else [fr]))
    ∧ ∀ fr ∈ bin.free_rects, (specSlivers fr ⟨x, y, w, h⟩).length ≤ 4 := by
  obtain ⟨br, hfb, hx, hy, rfl⟩ := place_some_spec hp
  constructor
  · dsimp only
    congr 1
    unfold newFreeList
    refine flatMap_congr ?_
    intro fr hfr
    by_cases hov : overlaps fr ⟨x, y, w, h⟩ = true
    · rw [if_pos hov, if_pos hov,
        splitRect_eq_specSlivers (hfree fr hfr).1 (hfree fr hfr).2]
    · rw [if_neg hov, if_neg hov]
  · intro fr hfr
    unfold specSlivers
    exact List.length_filter_le _ _

/-- Witness for C4: placing `1 × 1` into a fresh `2 × 2` bin splits the single
free rectangle into a right strip and a bottom strip. -/
theorem C4_split_residuals_witness :
    (∀ fr ∈ (MaxRectsBin.init 2 2).free_rects, 0 < fr.w ∧ 0 < fr.h)
    ∧ (⟨2, 2, [⟨1, 0, 1, 2⟩, ⟨0, 1, 2, 1⟩]⟩ : MaxRectsBin).free_rects =
        prune ((MaxRectsBin.init 2 2).free_rects.flatMap (fun fr =>
          if overlaps fr ⟨0, 0, 1, 1⟩ then specSlivers fr ⟨0, 0, 1, 1⟩ else [fr])) :=
  ⟨by decide,
   (C4_split_residuals (MaxRectsBin.init 2 2) 1 1 0 0 ⟨2, 2, [⟨1, 0, 1, 2⟩, ⟨0, 1, 2, 1⟩]⟩
     (by decide) (by decide)).1⟩

/-- C5: the source defines no `EmptyInputError`; on the empty input
`pack_rectangles` computes `total_area = 0` and then crashes in `max()` over
an empty sequence — modelled as the `ValueError` outcome — for every fuel. -/
theorem C5_empty_input_value_error {α : Type} (fuel : Nat) :
    pack_rectangles fuel ([] : List (Item α)) = .error .valueErrorMaxEmpty := rfl

/-- C6: the source defines no `InvalidItemError` and performs no validation:
an item of zero width is packed rather than rejected, and `pack_rectangles`
returns a placement for it. -/
theorem C6_zero_width_item_accepted :
    pack_rectangles 1 [(⟨0, 0, 10⟩ : Item Nat)] = .ok [⟨0, 0, 0, 0, 10⟩] 0 10 := by
  decide

/-- C7: the growth step never shrinks either dimension; when `w ≤ h` it
exactly doubles the width and keeps the height, otherwise it exactly doubles
the height and keeps the width; and a failed attempt makes the retry loop
continue at precisely the grown dimensions. -/
theorem C7_monotonic_growth (w h : Nat) (hw : 0 < w) (hh : 0 < h) :
    (w ≤ (grow w h).1 ∧ h ≤ (grow w h).2)
    ∧ (w ≤ h → (grow w h).1 = w * 2 ∧ w < (grow w h).1 ∧ (grow w h).2 = h)
    ∧ (h < w → (grow w h).2 = h * 2 ∧ h < (grow w h).2 ∧ (grow w h).1 = w)
    ∧ (∀ (α : Type) (fuel : Nat) (items : List (Item α)),
        attempt (MaxRectsBin.init w h) items = none →
        packLoop (fuel + 1) items w h = packLoop fuel items (grow w h).1 (grow w h).2) := by
  refine ⟨?_, ?_, ?_, ?_⟩
  · unfold grow
    split <;> constructor <;> omega
  · intro hle
    unfold grow
    rw [if_pos hle]
    refine ⟨rfl, by omega, rfl⟩
  · intro hlt
    unfold grow
    rw [if_neg (by omega)]
    refine ⟨rfl, by omega, rfl⟩
  · intro α fuel items hat
    simp only [packLoop, hat]

/-- Witness for C7: a `3 × 3` item fails in a `1 × 1` bin, and the loop
continues at the grown size. -/
theorem C7_monotonic_growth_witness :
    (1 ≤ (grow 1 1).1 ∧ 1 ≤ (grow 1 1).2)
    ∧ packLoop 1 [(⟨0, 3, 3⟩ : Item Nat)] 1 1 =
        packLoop 0 [(⟨0, 3, 3⟩ : Item Nat)] (grow 1 1).1 (grow 1 1).2 :=
  ⟨(C7_monotonic_growth 1 1 (by decide) (by decide)).1,
   (C7_monotonic_growth 1 1 (by decide) (by decide)).2.2.2 Nat 0 [⟨0, 3, 3⟩] (by decide)⟩

/-- C8: when `place` fails it has no side effects — the source returns before
mutating anything, so the bin state after a failing call is exactly the bin
state before it. -/
theorem C8_failed_place_no_side_effects (bin : MaxRectsBin) (w h : Nat)
    (hnone : (bin.place w h).1 = none) : (bin.place w h).2 = bin :=
  place_none_state hnone

/-- Witness for C8: a `5 × 5` request fails in a `1 × 1` bin and leaves it
unchanged. -/
theorem C8_failed_place_no_side_effects_witness :
    (((MaxRectsBin.init 1 1).place 5 5).1 = none)
    ∧ ((MaxRectsBin.init 1 1).place 5 5).2 = MaxRectsBin.init 1 1 :=
  ⟨by decide, C8_failed_place_no_side_effects (MaxRectsBin.init 1 1) 5 5 (by decide)⟩

/-- C9: every free rectangle has positive dimensions and lies inside the bin:
this holds after `__init__` for positive bin dimensions, is preserved by every
call to `place`, and any returned position satisfies `x + w ≤ bin.width` and
`y + h ≤ bin.height`. -/
theorem C9_free_rect_invariant :
    (∀ w h : Nat, 0 < w → 0 < h → FreeOk (MaxRectsBin.init w h))
    ∧ (∀ (bin : MaxRectsBin) (w h : Nat) (res : Option (Nat × Nat)) (bin' : MaxRectsBin),
        FreeOk bin → bin.place w h = (res, bin') → FreeOk bin')
    ∧ (∀ (bin : MaxRectsBin) (w h x y : Nat) (bin' : MaxRectsBin),
        FreeOk bin → bin.place w h = (some (x, y), bin') →
        x + w ≤ bin.width ∧ y + h ≤ bin.height) :=
  ⟨fun _ _ hw hh => init_FreeOk hw hh,
   fun _ _ _ _ _ hok hp => place_preserves_FreeOk hok hp,
   fun _ _ _ _ _ _ hok hp => place_pos_bound hok hp⟩

/-- Witness for C9 on a fresh `2 × 2` bin and a successful `1 × 1` placement. -/
theorem C9_free_rect_invariant_witness :
    FreeOk (MaxRectsBin.init 2 2)
    ∧ FreeOk (⟨2, 2, [⟨1, 0, 1, 2⟩, ⟨0, 1, 2, 1⟩]⟩ : MaxRectsBin)
    ∧ (0 + 1 ≤ (MaxRectsBin.init 2 2).width ∧ 0 + 1 ≤ (MaxRectsBin.init 2 2).height) :=
  ⟨C9_free_rect_invariant.1 2 2 (by decide) (by decide),
   C9_free_rect_invariant.2.1 (MaxRectsBin.init 2 2) 1 1 (some (0, 0))
     ⟨2, 2, [⟨1, 0, 1, 2⟩, ⟨0, 1, 2, 1⟩]⟩
     (C9_free_rect_invariant.1 2 2 (by decide) (by decide)) (by decide),
   C9_free_rect_invariant.2.2 (MaxRectsBin.init 2 2) 1 1 0 0
     ⟨2, 2, [⟨1, 0, 1, 2⟩, ⟨0, 1, 2, 1⟩]⟩
     (C9_free_rect_invariant.1 2 2 (by decide) (by decide)) (by decide)⟩

/-- C10 counterexample: `_prune` compares by index, so a duplicated free
rectangle is removed in both copies — the removed rectangle is then contained
in no remaining rectangle, falsifying the claim for lists with duplicates. -/
theorem C10_duplicate_counterexample :
    ∃ a ∈ [(⟨0, 0, 1, 1⟩ : Rect), ⟨0, 0, 1, 1⟩],
      a ∉ prune [(⟨0, 0, 1, 1⟩ : Rect), ⟨0, 0, 1, 1⟩] ∧
      ∀ b ∈ prune [(⟨0, 0, 1, 1⟩ : Rect), ⟨0, 0, 1, 1⟩], containedIn a b = false := by
  decide

/-- C10 (amended): on a duplicate-free free-rectangle list, `_prune` loses no
free area — every rectangle it removes is fully contained in some rectangle
that remains in the pruned list. -/
theorem C10_prune_no_area_loss (l : List Rect) (hnd : l.Nodup) (a : Rect)
    (ha : a ∈ l) (hrem : a ∉ prune l) : ∃ b ∈ prune l, containedIn a b = true := by
  obtain ⟨b0, hb0l, hb0ne, hb0c⟩ := exists_container_of_not_mem_prune hnd ha hrem
  have hb0S : b0 ∈ l.filter (fun b => containedIn a b) := List.mem_filter.2 ⟨hb0l, hb0c⟩
  have hSne : l.filter (fun b => containedIn a b) ≠ [] := by
    intro he
    rw [he] at hb0S
    cases hb0S
  obtain ⟨c, hcS, hcmax⟩ := exists_max_measure hSne
  have hcl : c ∈ l := (List.mem_filter.1 hcS).1
  have hcc : containedIn a c = true := (List.mem_filter.1 hcS).2
  refine ⟨c, ?_, hcc⟩
  apply mem_prune_of_forall hnd hcl
  intro d hdl hdc
  cases hv : containedIn c d with
  | false => rfl
  | true =>
    have had : containedIn a d = true := containedIn_trans hcc hv
    have hdS : d ∈ l.filter (fun b => containedIn a b) := List.mem_filter.2 ⟨hdl, had⟩
    have h1 : d.w + d.h ≤ c.w + c.h := hcmax d hdS
    have h2 : c.w + c.h < d.w + d.h := containedIn_measure hv (fun he => hdc he.symm)
    omega

/-- Witness for the amended C10: `(0,0,1,1)` is removed because `(0,0,2,2)`
contains it, and `(0,0,2,2)` remains. -/
theorem C10_prune_no_area_loss_witness :
    ([(⟨0, 0, 1, 1⟩ : Rect), ⟨0, 0, 2, 2⟩].Nodup)
    ∧ ((⟨0, 0, 1, 1⟩ : Rect) ∈ [(⟨0, 0, 1, 1⟩ : Rect), ⟨0, 0, 2, 2⟩])
    ∧ ((⟨0, 0, 1, 1⟩ : Rect) ∉ prune [(⟨0, 0, 1, 1⟩ : Rect), ⟨0, 0, 2, 2⟩])
    ∧ ∃ b ∈ prune [(⟨0, 0, 1, 1⟩ : Rect), ⟨0, 0, 2, 2⟩], containedIn ⟨0, 0, 1, 1⟩ b = true :=
  ⟨by decide, by decide, by decide,
   C10_prune_no_area_loss [⟨0, 0, 1, 1⟩, ⟨0, 0, 2, 2⟩] (by decide) ⟨0, 0, 1, 1⟩
     (by decide) (by decide)⟩
